import Mathlib

/-
  Verification development for the netrd `CorrelationSpanningTree` reconstructor
  (src/netrd/reconstruction/correlation_spanning_tree.py).

  The pipeline in `fit` is:
    C = np.corrcoef(TS)
    D = np.sqrt(2 * (1 - C)) if distance == 'root_inv' else 1 - np.square(C)
    self.results['distance_matrix'] = D
    MST = scipy.sparse.csgraph.minimum_spanning_tree(D)
    G = nx.from_scipy_sparse_matrix(MST)
    self.results['graph'] = G
    return G

  Modelling decisions (IEEE floats are idealized as real numbers):
  * A matrix entry is an `RV`: either a real value or NaN.  numpy produces NaN
    for 0/0 (zero-variance rows) and for the square root of a negative number;
    with exact real arithmetic no infinities can arise in this pipeline, so no
    infinity constructor is needed.
  * `np.corrcoef` divides the covariance matrix by the outer product of the
    standard deviations and then clips the result to [-1, 1]
    (numpy: `np.clip(c.real, -1, 1, out=c.real)`); division by a zero standard
    deviation is 0/0 (the covariance numerator is exactly zero) and yields NaN.
    `np.cov` uses ddof = 1, so with fewer than 2 columns every entry is NaN
    (0/0).  With exactly one row, `np.cov` squeezes its result to a 0-d array
    and `np.corrcoef` returns the 0-d `c / c`; scipy's graph validation then
    rejects the 0-d distance matrix ("graph must be 2 dimensions"), so `fit`
    raises after having stored the distance matrix.  This is the `N = 1` branch
    of `fit` below; the stored 0-d value `c / c` agrees with the general
    diagonal formula, which is why no separate value computation is needed.
  * `scipy.sparse.csgraph.minimum_spanning_tree` receives a DENSE matrix; the
    csgraph dense representation cannot express explicit zero-weight edges:
    `csgraph_from_dense` is called with `null_value=0, nan_null=True,
    infinity_null=True`, so entries equal to 0 and NaN entries are both
    treated as "no edge" (`denseNull`).  Its documented contract is to return
    a minimum spanning forest of the resulting undirected graph; the internal
    edge-selection order is not documented, so the builder is modelled by the
    dense Prim-style algorithm of spec section 4.3 with its stated
    deterministic tie-breaks (smallest connecting weight, then lowest node
    index, then lowest-indexed tree endpoint; restart at the lowest-indexed
    unvisited node when the current component is exhausted).
  * `nx.from_scipy_sparse_matrix` produces a graph whose nodes are 0..N-1 and
    whose edges carry the stored weights (`from_scipy_sparse_matrix`).
  * `self.results` is a mutable dict attached to the instance (created once in
    `BaseReconstructor.__init__`); `fit` is modelled as a function that takes
    the current store and returns the updated store, together with the normal
    return value or the exception.
-/

namespace CST

/-- A float value in the pipeline: a real number or NaN. -/
inductive RV where
  | val : ℝ → RV
  | nan : RV

/-- Float subtraction with NaN propagation. -/
def RV.sub : RV → RV → RV
  | RV.val a, RV.val b => RV.val (a - b)
  | _, _ => RV.nan

/-- Float multiplication with NaN propagation. -/
def RV.mul : RV → RV → RV
  | RV.val a, RV.val b => RV.val (a * b)
  | _, _ => RV.nan

/-- `np.sqrt`: NaN on NaN and on negative inputs. -/
noncomputable def rvSqrt : RV → RV
  | RV.val x => if 0 ≤ x then RV.val (Real.sqrt x) else RV.nan
  | RV.nan => RV.nan

/-- Mean of the first `L` entries of a row (numpy row mean). -/
noncomputable def rowMean (L : ℕ) (x : ℕ → ℝ) : ℝ := (∑ k ∈ Finset.range L, x k) / L

/-- Entry `(i, j)` of `np.cov` with the default `ddof = 1`. -/
noncomputable def cov (L : ℕ) (x : ℕ → ℕ → ℝ) (i j : ℕ) : ℝ :=
  (∑ k ∈ Finset.range L, (x i k - rowMean L (x i)) * (x j k - rowMean L (x j))) / ((L : ℝ) - 1)

/-- numpy's clip of a correlation entry to `[-1, 1]`. -/
noncomputable def clip (x : ℝ) : ℝ := min 1 (max (-1) x)

/-- Entry `(i, j)` of `np.corrcoef`: covariance normalized by the standard
deviations, clipped to `[-1, 1]`.  NaN when fewer than 2 samples are available
(`ddof = 1` makes `np.cov` divide 0 by 0) or when either row has zero sample
variance (the numerator is then exactly 0, so numpy computes 0/0). -/
noncomputable def corrcoef (L : ℕ) (x : ℕ → ℕ → ℝ) (i j : ℕ) : RV :=
  if L < 2 then RV.nan
  else if cov L x i i = 0 ∨ cov L x j j = 0 then RV.nan
  else RV.val (clip (cov L x i j / (Real.sqrt (cov L x i i) * Real.sqrt (cov L x j j))))

/-- The `'root_inv'` transform `np.sqrt(2 * (1 - C))`, entrywise. -/
noncomputable def root_inv (c : RV) : RV := rvSqrt (RV.mul (RV.val 2) (RV.sub (RV.val 1) c))

/-- The `'inv_square'` transform `1 - np.square(C)`, entrywise. -/
def inv_square (c : RV) : RV := RV.sub (RV.val 1) (RV.mul c c)

/-- The distance matrix: the source's conditional expression
`np.sqrt(2 * (1 - C)) if distance == 'root_inv' else 1 - np.square(C)`. -/
noncomputable def distMatrix (distance : String) (C : ℕ → ℕ → RV) : ℕ → ℕ → RV :=
  fun i j => if distance = "root_inv" then root_inv (C i j) else inv_square (C i j)

/-- scipy's dense null convention (`csgraph_from_dense` with `null_value=0`,
`nan_null=True`): an entry that is 0 or NaN denotes the absence of an edge. -/
noncomputable def denseNull (v : RV) : Option ℝ :=
  match v with
  | RV.val x => if x = 0 then none else some x
  | RV.nan => none

/-- Best connection of the unvisited node `v` into the visited set: the
minimum usable weight `W u v` over visited `u`, with ties resolved toward the
lowest-indexed visited endpoint `u` (scan in increasing `u`, replace only on a
strict improvement). -/
def bestConn {α : Type} [LinearOrder α] {n : ℕ} (W : Fin n → Fin n → Option α)
    (visited : Finset (Fin n)) (v : Fin n) : Option (α × Fin n) :=
  (List.finRange n).foldl (fun acc u =>
    if u ∈ visited then
      match W u v, acc with
      | some w, none => some (w, u)
      | some w, some p => if w < p.1 then some (w, u) else some p
      | none, _ => acc
    else acc) none

/-- Next node to add to the tree: the unvisited node whose best connecting
weight is smallest, ties resolved toward the lowest node index (scan in
increasing `v`, replace only on a strict improvement).  `none` when no
unvisited node has a usable connection into the visited set. -/
def chooseNext {α : Type} [LinearOrder α] {n : ℕ} (W : Fin n → Fin n → Option α)
    (visited : Finset (Fin n)) : Option (Fin n × α × Fin n) :=
  (List.finRange n).foldl (fun acc v =>
    if v ∈ visited then acc
    else
      match bestConn W visited v, acc with
      | some (w, u), none => some (v, w, u)
      | some (w, u), some t => if w < t.2.1 then some (v, w, u) else some t
      | none, _ => acc) none

/-- Lowest-indexed unvisited node, used to (re)start a component. -/
def leastUnvisited {n : ℕ} (visited : Finset (Fin n)) : Option (Fin n) :=
  (List.finRange n).find? (fun v => decide (v ∉ visited))

/-- One growth loop of the dense Prim-style builder: repeatedly add the
unvisited node with the smallest connecting weight together with its chosen
edge `(u, v, w)` (`u` in the tree, `v` the new node); when the current
component is exhausted, restart from the lowest-indexed unvisited node with no
edge.  The fuel is the number of nodes, as each step visits one new node. -/
def primAux {α : Type} [LinearOrder α] {n : ℕ} (W : Fin n → Fin n → Option α) :
    ℕ → Finset (Fin n) → List (Fin n × Fin n × α) → List (Fin n × Fin n × α)
  | 0, _, acc => acc
  | fuel + 1, visited, acc =>
    match chooseNext W visited with
    | some (v, w, u) => primAux W fuel (insert v visited) (acc ++ [(u, v, w)])
    | none =>
      match leastUnvisited visited with
      | some v => primAux W fuel (insert v visited) acc
      | none => acc

/-- Model of `scipy.sparse.csgraph.minimum_spanning_tree` on an `n × n`
matrix already reduced to its usable entries `W` (see `denseNull`): a minimum
spanning forest of the undirected graph whose edges are the usable entries,
computed by the dense Prim-style algorithm with deterministic tie-breaks. -/
def minimum_spanning_tree {α : Type} [LinearOrder α] (n : ℕ)
    (W : Fin n → Fin n → Option α) : List (Fin n × Fin n × α) :=
  primAux W n ∅ []

/-- The output graph: `n` integer-labeled nodes `0..n-1` and a weighted edge
list, as produced by `nx.from_scipy_sparse_matrix`. -/
structure RGraph where
  n : ℕ
  edges : List (ℕ × ℕ × ℝ)

/-- Forget the `Fin` bounds of a builder edge list. -/
def natEdges {α : Type} {n : ℕ} (es : List (Fin n × Fin n × α)) : List (ℕ × ℕ × α) :=
  es.map (fun e => (e.1.val, e.2.1.val, e.2.2))

/-- Model of `nx.from_scipy_sparse_matrix` applied to the sparse MST result:
the graph has one node per matrix row and one weighted edge per stored entry. -/
def from_scipy_sparse_matrix (n : ℕ) (es : List (Fin n × Fin n × ℝ)) : RGraph :=
  ⟨n, natEdges es⟩

/-- Undirected edge membership in the output graph. -/
def RGraph.hasEdge (G : RGraph) (a b : ℕ) : Prop :=
  ∃ w, (a, b, w) ∈ G.edges ∨ (b, a, w) ∈ G.edges

/-- Total edge weight of the output graph. -/
def RGraph.totalWeight (G : RGraph) : ℝ := (G.edges.map (fun e => e.2.2)).sum

/-- The unordered pairs of endpoints of an edge list. -/
def edgeSyms {α : Type} (es : List (ℕ × ℕ × α)) : Set (Sym2 ℕ) :=
  {p | ∃ e ∈ es, p = s(e.1, e.2.1)}

/-- The simple graph spanned by an edge list (loops discarded), used to state
acyclicity of the builder's output. -/
def graphOfEdges {α : Type} (es : List (ℕ × ℕ × α)) : SimpleGraph ℕ :=
  SimpleGraph.fromEdgeSet (edgeSyms es)

/-- A value stored in the `results` dict of the reconstructor. -/
inductive RVal where
  | dmat : (ℕ → ℕ → RV) → RVal
  | graph : RGraph → RVal

/-- The instance-attached `self.results` dict, keyed by strings. -/
def Store : Type := String → Option RVal

/-- Dict assignment `self.results[k] = v`. -/
def Store.set (s : Store) (k : String) (v : RVal) : Store :=
  fun q => if q = k then some v else s q

/-- The empty dict created by `BaseReconstructor.__init__`. -/
def emptyStore : Store := fun _ => none

/-- The exceptions `fit` can raise. -/
inductive FitErr where
  | shapeUnpack
  | mstNotTwoDim

/-- A numpy array: its shape, and its entries (read as a 2-d array). -/
structure NDArr where
  shape : List ℕ
  entry : ℕ → ℕ → ℝ

/-- The observable outcome of one `fit` call: the instance's `results` dict
after the call (Python mutations persist even when an exception is raised),
and either the returned graph or the exception. -/
structure FitOutcome where
  results : Store
  result : Except FitErr RGraph

/-- Concrete observation entries for the identical-rows scenario: rows 0 and
1 are both `(1, 2)`, row 2 is `(2, 1)`. -/
noncomputable def ts5 : ℕ → ℕ → ℝ := fun i k =>
  if i = 2 then (if k = 0 then 2 else 1) else (if k = 0 then 1 else 2)

/-- The usable-entry table arising from `ts5` under `'root_inv'`: the
distances are 0 between the identical rows 0 and 1 (an absent edge in the
dense scipy representation) and 2 for the anticorrelated pairs. -/
noncomputable def Wexp5 : Fin 3 → Fin 3 → Option ℝ := fun u v =>
  if (u.val = 0 ∧ v.val = 2) ∨ (u.val = 2 ∧ v.val = 0) ∨
     (u.val = 1 ∧ v.val = 2) ∨ (u.val = 2 ∧ v.val = 1) then some 2 else none

/-- Model of `CorrelationSpanningTree.fit`.  `N, L = TS.shape` raises for a
non-2-d array; then `C = np.corrcoef(TS)`, the conditional distance matrix,
the `'distance_matrix'` store write, the scipy MST call (which rejects the
0-d matrix arising for `N = 1`, see the header comment), the graph
materialization, and the `'graph'` store write. -/
noncomputable def fit (results : Store) (TS : NDArr) (distance : String) : FitOutcome :=
  match TS.shape with
  | [N, L] =>
    let C := corrcoef L TS.entry
    let D := distMatrix distance C
    let results1 := results.set "distance_matrix" (RVal.dmat D)
    if N = 1 then ⟨results1, Except.error FitErr.mstNotTwoDim⟩
    else
      let MST := minimum_spanning_tree N (fun i j => denseNull (D i.val j.val))
      let G := from_scipy_sparse_matrix N MST
      ⟨results1.set "graph" (RVal.graph G), Except.ok G⟩
  | _ => ⟨results, Except.error FitErr.shapeUnpack⟩

/-! ## Generic helper lemmas -/

/-- An option-valued fold preserves a property of the produced value. -/
theorem foldl_option_spec {β γ : Type*} (P : γ → Prop) (f : Option γ → β → Option γ)
    (l : List β)
    (hstep : ∀ acc b, (∀ g, acc = some g → P g) → ∀ g, f acc b = some g → P g) :
    ∀ acc, (∀ g, acc = some g → P g) → ∀ g, l.foldl f acc = some g → P g := by
  induction l with
  | nil => intro acc hacc g hg; exact hacc g hg
  | cons b t ih => intro acc hacc g hg; exact ih (f acc b) (hstep acc b hacc) g hg

/-- Every non-nil walk contains an edge into its endpoint. -/
theorem exists_edge_into_endpoint {V : Type*} {G : SimpleGraph V} {a b : V}
    (p : G.Walk a b) (hp : ¬p.Nil) : ∃ x, G.Adj x b ∧ s(x, b) ∈ p.edges := by
  induction p with
  | nil => exact absurd SimpleGraph.Walk.Nil.nil hp
  | @cons a c b h q ih =>
    by_cases hq : q.Nil
    · have hcb : c = b := hq.eq
      subst hcb
      exact ⟨a, h, by simp⟩
    · obtain ⟨x, hx, hmem⟩ := ih hq
      exact ⟨x, hx, by simp [hmem]⟩

/-- Adding a single edge at a vertex that is incident to no edge of an acyclic
graph keeps the graph acyclic. -/
theorem pendant_acyclic {V : Type*} [DecidableEq V] {G : SimpleGraph V} {u v : V} (huv : u ≠ v)
    (hG : G.IsAcyclic) (hv : ∀ w, ¬G.Adj v w) :
    (G ⊔ SimpleGraph.fromEdgeSet {s(u, v)}).IsAcyclic := by
  intro a c hc
  -- the only neighbor of `v` in the extended graph is `u`
  have hto_u : ∀ x : V, (G ⊔ SimpleGraph.fromEdgeSet {s(u, v)}).Adj v x → x = u := by
    intro x hx
    rcases (SimpleGraph.sup_adj _ _ _ _).mp hx with hx | hx
    · exact absurd hx (hv x)
    · rcases (SimpleGraph.fromEdgeSet_adj _).mp hx with ⟨hmem, _⟩
      have := Set.mem_singleton_iff.mp hmem
      rcases Sym2.eq_iff.mp this with ⟨hvu, _⟩ | ⟨_, hxu⟩
      · exact absurd hvu.symm huv
      · exact hxu
  by_cases hsup : v ∈ c.support
  · -- rotate the cycle to start at the pendant vertex `v`
    have hc' := hc.rotate hsup
    obtain ⟨b, h', q, hq⟩ := SimpleGraph.Walk.not_nil_iff.mp hc'.not_nil
    rw [hq] at hc'
    have hbu : b = u := hto_u b h'
    subst hbu
    -- from the cycle decomposition: `q` is a walk `u → v` avoiding `s(v, u)`
    have hdec := (SimpleGraph.Walk.cons_isCycle_iff q h').mp hc'
    have hqnil : ¬q.Nil := SimpleGraph.Walk.not_nil_of_ne huv
    obtain ⟨x, hxadj, hxmem⟩ := exists_edge_into_endpoint q hqnil
    have hxu : x = b := hto_u x hxadj.symm
    subst hxu
    exact hdec.2 (by rw [show s(v, x) = s(x, v) from Sym2.eq_swap]; exact hxmem)
  · -- the cycle avoids `v`, hence uses no new edge: transfer it to `G`
    have hedges : ∀ e ∈ c.edges, e ∈ G.edgeSet := by
      intro e he
      have hmem := c.edges_subset_edgeSet he
      rw [SimpleGraph.edgeSet_sup] at hmem
      rcases hmem with hmem | hmem
      · exact hmem
      · rw [SimpleGraph.edgeSet_fromEdgeSet] at hmem
        have : e = s(u, v) := Set.mem_singleton_iff.mp hmem.1
        subst this
        exact absurd (c.snd_mem_support_of_mem_edges he) hsup
    exact hG (c.transfer G hedges) (hc.transfer hedges)

/-! ## Builder step characterizations -/

/-- A best connection returned by `bestConn` is a usable edge from a visited
node. -/
theorem bestConn_spec {α : Type} [LinearOrder α] {n : ℕ} (W : Fin n → Fin n → Option α)
    (visited : Finset (Fin n)) (v : Fin n) :
    ∀ p : α × Fin n, bestConn W visited v = some p → p.2 ∈ visited ∧ W p.2 v = some p.1 := by
  intro p hp
  refine foldl_option_spec (fun p : α × Fin n => p.2 ∈ visited ∧ W p.2 v = some p.1)
    _ (List.finRange n) ?_ none (by intro g hg; cases hg) p hp
  intro acc b hacc g hg
  by_cases hb : b ∈ visited
  · rw [if_pos hb] at hg
    rcases hW : W b v with _ | w <;> rcases hA : acc with _ | q <;>
        rw [hW, hA] at hg <;> simp only at hg
    · exact hacc g (hA ▸ hg)
    · exact hacc g (hA ▸ hg)
    · cases hg; exact ⟨hb, hW⟩
    · by_cases hlt : w < q.1
      · rw [if_pos hlt] at hg; cases hg; exact ⟨hb, hW⟩
      · rw [if_neg hlt] at hg; exact hacc g (hA ▸ hg)
  · rw [if_neg hb] at hg
    exact hacc g hg

/-- A node chosen by `chooseNext` is unvisited and comes with its best
connection. -/
theorem chooseNext_spec {α : Type} [LinearOrder α] {n : ℕ} (W : Fin n → Fin n → Option α)
    (visited : Finset (Fin n)) :
    ∀ t : Fin n × α × Fin n, chooseNext W visited = some t →
      t.1 ∉ visited ∧ bestConn W visited t.1 = some t.2 := by
  intro t ht
  refine foldl_option_spec
    (fun t : Fin n × α × Fin n => t.1 ∉ visited ∧ bestConn W visited t.1 = some t.2)
    _ (List.finRange n) ?_ none (by intro g hg; cases hg) t ht
  intro acc b hacc g hg
  by_cases hb : b ∈ visited
  · rw [if_pos hb] at hg
    exact hacc g hg
  · rw [if_neg hb] at hg
    rcases hW : bestConn W visited b with _ | ⟨w, u⟩ <;> rcases hA : acc with _ | q <;>
        rw [hW, hA] at hg <;> simp only at hg
    · exact hacc g (hA ▸ hg)
    · exact hacc g (hA ▸ hg)
    · cases hg; exact ⟨hb, hW⟩
    · by_cases hlt : w < q.2.1
      · rw [if_pos hlt] at hg; cases hg; exact ⟨hb, hW⟩
      · rw [if_neg hlt] at hg; exact hacc g (hA ▸ hg)

/-- The restart node is unvisited. -/
theorem leastUnvisited_spec {n : ℕ} (visited : Finset (Fin n)) (v : Fin n)
    (h : leastUnvisited visited = some v) : v ∉ visited := by
  have := List.find?_some h
  exact of_decide_eq_true this

/-! ## Graph-of-edge-list lemmas -/

/-- Appending one edge to an edge list joins the corresponding single-edge
graph. -/
theorem graphOfEdges_append_single {α : Type} (l : List (ℕ × ℕ × α)) (a b : ℕ) (w : α) :
    graphOfEdges (l ++ [(a, b, w)]) =
      graphOfEdges l ⊔ SimpleGraph.fromEdgeSet {s(a, b)} := by
  rw [graphOfEdges, graphOfEdges, ← SimpleGraph.fromEdgeSet_union]
  congr 1
  ext p
  simp only [edgeSyms, Set.mem_setOf_eq, List.mem_append, List.mem_singleton,
    Set.mem_union, Set.mem_singleton_iff]
  constructor
  · rintro ⟨e, he | rfl, hp⟩
    · exact Or.inl ⟨e, he, hp⟩
    · exact Or.inr hp
  · rintro (⟨e, he, hp⟩ | hp)
    · exact ⟨e, Or.inl he, hp⟩
    · exact ⟨(a, b, w), Or.inr rfl, hp⟩

/-- A vertex touching no entry of the edge list is isolated in the spanned
graph. -/
theorem graphOfEdges_not_adj {α : Type} (l : List (ℕ × ℕ × α)) (a : ℕ)
    (h : ∀ e ∈ l, a ≠ e.1 ∧ a ≠ e.2.1) : ∀ b, ¬(graphOfEdges l).Adj a b := by
  intro b hadj
  rcases (SimpleGraph.fromEdgeSet_adj _).mp hadj with ⟨hmem, _⟩
  rcases hmem with ⟨e, he, hp⟩
  rcases Sym2.eq_iff.mp hp with ⟨h1, _⟩ | ⟨h1, _⟩
  · exact (h e he).1 h1
  · exact (h e he).2 h1

/-- The empty edge list spans an acyclic graph. -/
theorem graphOfEdges_nil_acyclic {α : Type} :
    (graphOfEdges ([] : List (ℕ × ℕ × α))).IsAcyclic := by
  intro v c hc
  obtain ⟨b, h', q, hq⟩ := SimpleGraph.Walk.not_nil_iff.mp hc.not_nil
  rcases (SimpleGraph.fromEdgeSet_adj _).mp h' with ⟨hmem, _⟩
  rcases hmem with ⟨e, he, _⟩
  exact absurd he (List.not_mem_nil e)

/-! ## Builder invariants -/

/-- Structural invariant of the Prim-style loop: every produced edge is a
usable entry of `W` (so NaN and zero entries never yield edges), and the
produced edge set is acyclic, since every step attaches a not-yet-visited node
to the visited set by a single new edge. -/
theorem primAux_inv {α : Type} [LinearOrder α] {n : ℕ} (W : Fin n → Fin n → Option α) :
    ∀ (fuel : ℕ) (visited : Finset (Fin n)) (acc : List (Fin n × Fin n × α)),
      (∀ e ∈ acc, W e.1 e.2.1 = some e.2.2 ∧ e.1 ∈ visited ∧ e.2.1 ∈ visited) →
      (graphOfEdges (natEdges acc)).IsAcyclic →
      (∀ e ∈ primAux W fuel visited acc, W e.1 e.2.1 = some e.2.2) ∧
      (graphOfEdges (natEdges (primAux W fuel visited acc))).IsAcyclic := by
  intro fuel
  induction fuel with
  | zero =>
    intro visited acc hacc hacy
    exact ⟨fun e he => (hacc e he).1, hacy⟩
  | succ fuel ih =>
    intro visited acc hacc hacy
    rcases hch : chooseNext W visited with _ | ⟨v, w, u⟩
    · rcases hLU : leastUnvisited visited with _ | v
      · simp only [primAux, hch, hLU]
        exact ⟨fun e he => (hacc e he).1, hacy⟩
      · simp only [primAux, hch, hLU]
        refine ih (insert v visited) acc ?_ hacy
        intro e he
        obtain ⟨h1, h2, h3⟩ := hacc e he
        exact ⟨h1, Finset.mem_insert_of_mem h2, Finset.mem_insert_of_mem h3⟩
    · obtain ⟨hvnot, hbest⟩ := chooseNext_spec W visited (v, w, u) hch
      obtain ⟨huvis, hW⟩ := bestConn_spec W visited v (w, u) hbest
      simp only [primAux, hch]
      refine ih (insert v visited) (acc ++ [(u, v, w)]) ?_ ?_
      · intro e he
        rcases List.mem_append.mp he with he | he
        · obtain ⟨h1, h2, h3⟩ := hacc e he
          exact ⟨h1, Finset.mem_insert_of_mem h2, Finset.mem_insert_of_mem h3⟩
        · rcases List.mem_singleton.mp he with rfl
          exact ⟨hW, Finset.mem_insert_of_mem huvis, Finset.mem_insert_self v visited⟩
      · rw [natEdges, List.map_append, ← natEdges]
        have hmap :
            ([(u, v, w)].map (fun e : Fin n × Fin n × α => (e.1.val, e.2.1.val, e.2.2))) =
              [((u : ℕ), (v : ℕ), w)] := by simp
        rw [hmap, graphOfEdges_append_single]
        have huv : (u : ℕ) ≠ (v : ℕ) := by
          intro h
          exact hvnot (Fin.val_injective h ▸ huvis)
        refine pendant_acyclic huv hacy ?_
        refine graphOfEdges_not_adj _ _ ?_
        intro e he
        rcases List.mem_map.mp he with ⟨e', he', rfl⟩
        obtain ⟨_, h2, h3⟩ := hacc e' he'
        constructor
        · intro h
          exact hvnot (Fin.val_injective h ▸ h2)
        · intro h
          exact hvnot (Fin.val_injective h ▸ h3)

/-- Every edge selected by the spanning-tree builder is a usable entry of the
weight matrix: NaN, infinite, and zero entries never produce an edge. -/
theorem minimum_spanning_tree_usable {α : Type} [LinearOrder α] (n : ℕ)
    (W : Fin n → Fin n → Option α) :
    ∀ e ∈ minimum_spanning_tree n W, W e.1 e.2.1 = some e.2.2 :=
  (primAux_inv W n ∅ [] (by intro e he; cases he) graphOfEdges_nil_acyclic).1

/-- The spanning-tree builder's output is always acyclic: a forest. -/
theorem minimum_spanning_tree_acyclic {α : Type} [LinearOrder α] (n : ℕ)
    (W : Fin n → Fin n → Option α) :
    (graphOfEdges (natEdges (minimum_spanning_tree n W))).IsAcyclic :=
  (primAux_inv W n ∅ [] (by intro e he; cases he) graphOfEdges_nil_acyclic).2

/-- A fold from `none` whose step fixes `none` stays `none`. -/
theorem foldl_none {β γ : Type*} (f : Option γ → β → Option γ) (l : List β)
    (h : ∀ b, f none b = none) : l.foldl f none = none := by
  induction l with
  | nil => rfl
  | cons b t ih => rw [List.foldl_cons, h b]; exact ih

/-- With no usable entries there is no best connection. -/
theorem bestConn_none {α : Type} [LinearOrder α] {n : ℕ} (W : Fin n → Fin n → Option α)
    (visited : Finset (Fin n)) (v : Fin n) (h : ∀ u v, W u v = none) :
    bestConn W visited v = none := by
  refine foldl_none _ _ ?_
  intro u
  by_cases hu : u ∈ visited
  · rw [if_pos hu, h u v]
  · rw [if_neg hu]

/-- With no usable entries no next node can be chosen. -/
theorem chooseNext_none {α : Type} [LinearOrder α] {n : ℕ} (W : Fin n → Fin n → Option α)
    (visited : Finset (Fin n)) (h : ∀ u v, W u v = none) :
    chooseNext W visited = none := by
  refine foldl_none _ _ ?_
  intro v
  by_cases hv : v ∈ visited
  · rw [if_pos hv]
  · rw [if_neg hv, bestConn_none W visited v h]

/-- With no usable entries the loop only restarts components and adds no
edges. -/
theorem primAux_no_usable {α : Type} [LinearOrder α] {n : ℕ} (W : Fin n → Fin n → Option α)
    (h : ∀ u v, W u v = none) :
    ∀ (fuel : ℕ) (visited : Finset (Fin n)) (acc : List (Fin n × Fin n × α)),
      primAux W fuel visited acc = acc := by
  intro fuel
  induction fuel with
  | zero => intro visited acc; rfl
  | succ fuel ih =>
    intro visited acc
    rcases hLU : leastUnvisited visited with _ | v <;>
      simp only [primAux, chooseNext_none W visited h, hLU, ih]

/-- With no usable entries the builder returns no edges at all. -/
theorem minimum_spanning_tree_no_usable {α : Type} [LinearOrder α] (n : ℕ)
    (W : Fin n → Fin n → Option α) (h : ∀ u v, W u v = none) :
    minimum_spanning_tree n W = [] :=
  primAux_no_usable W h n ∅ []

/-! ## Store lemmas -/

/-- Reading back the key just written. -/
theorem Store.set_self (s : Store) (k : String) (v : RVal) : (s.set k v) k = some v := by
  simp [Store.set]

/-- Writing one key leaves every other key unchanged. -/
theorem Store.set_other (s : Store) (k : String) (v : RVal) (q : String) (h : q ≠ k) :
    (s.set k v) q = s q := by
  simp [Store.set, h]

/-! ## NaN propagation and branch lemmas -/

/-- Fewer than two samples make every correlation entry NaN (`np.cov` divides
by `L - 1 = 0` and the numerator is 0). -/
theorem corrcoef_short {L : ℕ} (x : ℕ → ℕ → ℝ) (i j : ℕ) (h : L < 2) :
    corrcoef L x i j = RV.nan := by
  rw [corrcoef, if_pos h]

/-- A zero-variance left row makes the correlation entry NaN. -/
theorem corrcoef_nan_left {L : ℕ} (x : ℕ → ℕ → ℝ) (i j : ℕ) (h : cov L x i i = 0) :
    corrcoef L x i j = RV.nan := by
  rw [corrcoef]
  by_cases hL : L < 2
  · rw [if_pos hL]
  · rw [if_neg hL, if_pos (Or.inl h)]

/-- A zero-variance right row makes the correlation entry NaN. -/
theorem corrcoef_nan_right {L : ℕ} (x : ℕ → ℕ → ℝ) (i j : ℕ) (h : cov L x j j = 0) :
    corrcoef L x i j = RV.nan := by
  rw [corrcoef]
  by_cases hL : L < 2
  · rw [if_pos hL]
  · rw [if_neg hL, if_pos (Or.inr h)]

/-- Both distance formulas propagate NaN. -/
theorem distMatrix_nan {d : String} {C : ℕ → ℕ → RV} {i j : ℕ} (h : C i j = RV.nan) :
    distMatrix d C i j = RV.nan := by
  rw [distMatrix]
  by_cases hd : d = "root_inv"
  · rw [if_pos hd, h, root_inv]
    rfl
  · rw [if_neg hd, h, inv_square]
    rfl

/-- NaN entries are no-edges in the dense scipy representation. -/
theorem denseNull_nan : denseNull RV.nan = none := rfl

/-- Zero entries are no-edges in the dense scipy representation. -/
theorem denseNull_zero : denseNull (RV.val 0) = none := by
  rw [denseNull, if_pos rfl]

/-- Any distance option other than the exact string `'root_inv'` selects the
inverse-square formula: the source's conditional has no third outcome. -/
theorem distMatrix_not_root {d : String} (hd : d ≠ "root_inv") :
    distMatrix d = distMatrix "inv_square" := by
  funext C i j
  rw [distMatrix, distMatrix, if_neg hd, if_neg (by decide)]

/-! ## Arithmetic lemmas about the correlation and distance entries -/

/-- The covariance matrix is symmetric. -/
theorem cov_symm (L : ℕ) (x : ℕ → ℕ → ℝ) (i j : ℕ) : cov L x i j = cov L x j i := by
  rw [cov, cov]
  congr 1
  refine Finset.sum_congr rfl ?_
  intro k _
  ring

/-- Sample variances are non-negative (for `L ≥ 2`, where the `ddof = 1`
denominator is positive). -/
theorem cov_self_nonneg (L : ℕ) (x : ℕ → ℕ → ℝ) (i : ℕ) (hL : 2 ≤ L) :
    0 ≤ cov L x i i := by
  rw [cov]
  apply div_nonneg
  · exact Finset.sum_nonneg fun k _ => mul_self_nonneg _
  · have h2 : (2 : ℝ) ≤ (L : ℝ) := by exact_mod_cast hL
    linarith

/-- The clip keeps entries at most 1. -/
theorem clip_le_one (x : ℝ) : clip x ≤ 1 := min_le_left _ _

/-- The clip keeps entries at least -1. -/
theorem neg_one_le_clip (x : ℝ) : -1 ≤ clip x := le_min (by norm_num) (le_max_left _ _)

/-- Diagonal correlation entries are exactly 1 for rows with nonzero
variance. -/
theorem corrcoef_self (L : ℕ) (x : ℕ → ℕ → ℝ) (i : ℕ) (hL : 2 ≤ L)
    (h : cov L x i i ≠ 0) : corrcoef L x i i = RV.val 1 := by
  rw [corrcoef, if_neg (by omega), if_neg (by simp [h])]
  congr 1
  rw [Real.mul_self_sqrt (cov_self_nonneg L x i hL), div_self h]
  norm_num [clip]

/-- The correlation matrix is symmetric. -/
theorem corrcoef_symm (L : ℕ) (x : ℕ → ℕ → ℝ) (i j : ℕ) :
    corrcoef L x i j = corrcoef L x j i := by
  rw [corrcoef, corrcoef]
  by_cases hL : L < 2
  · rw [if_pos hL, if_pos hL]
  · rw [if_neg hL, if_neg hL]
    by_cases h : cov L x i i = 0 ∨ cov L x j j = 0
    · rw [if_pos h, if_pos h.symm]
    · rw [if_neg h, if_neg (fun hc => h hc.symm)]
      rw [cov_symm L x i j,
        mul_comm (Real.sqrt (cov L x i i)) (Real.sqrt (cov L x j j))]

/-- Every correlation entry is NaN or a clipped value in `[-1, 1]`. -/
theorem corrcoef_cases (L : ℕ) (x : ℕ → ℕ → ℝ) (i j : ℕ) :
    corrcoef L x i j = RV.nan ∨
      ∃ c, corrcoef L x i j = RV.val c ∧ -1 ≤ c ∧ c ≤ 1 := by
  rw [corrcoef]
  by_cases hL : L < 2
  · exact Or.inl (by rw [if_pos hL])
  · rw [if_neg hL]
    by_cases h : cov L x i i = 0 ∨ cov L x j j = 0
    · exact Or.inl (by rw [if_pos h])
    · refine Or.inr ?_
      rw [if_neg h]
      exact ⟨_, rfl, neg_one_le_clip _, clip_le_one _⟩

/-- With both variances nonzero (and enough samples) the correlation entry is
a value in `[-1, 1]`. -/
theorem corrcoef_val (L : ℕ) (x : ℕ → ℕ → ℝ) (i j : ℕ) (hL : 2 ≤ L)
    (hi : cov L x i i ≠ 0) (hj : cov L x j j ≠ 0) :
    ∃ c, corrcoef L x i j = RV.val c ∧ -1 ≤ c ∧ c ≤ 1 := by
  rw [corrcoef, if_neg (by omega), if_neg (by simp [hi, hj])]
  exact ⟨_, rfl, neg_one_le_clip _, clip_le_one _⟩

/-- The root-inverse transform on values at most 1 takes the real square
root. -/
theorem root_inv_val_le_one {c : ℝ} (hc : c ≤ 1) :
    root_inv (RV.val c) = RV.val (Real.sqrt (2 * (1 - c))) := by
  simp only [root_inv, RV.sub, RV.mul, rvSqrt]
  rw [if_pos (by nlinarith)]

/-- The inverse-square transform on values. -/
theorem inv_square_val (c : ℝ) : inv_square (RV.val c) = RV.val (1 - c * c) := rfl

/-- The square root of 4. -/
theorem sqrt_four : Real.sqrt 4 = 2 := by
  rw [show (4 : ℝ) = 2 ^ 2 by norm_num, Real.sqrt_sq (by norm_num : (0 : ℝ) ≤ 2)]

/-- Projection of a literal outcome record. -/
theorem results_mk (a : Store) (b : Except FitErr RGraph) :
    (FitOutcome.mk a b).results = a := rfl

/-- Projection of a literal outcome record. -/
theorem result_mk (a : Store) (b : Except FitErr RGraph) :
    (FitOutcome.mk a b).result = b := rfl

/-! ## Unfolding lemmas for `fit` -/

/-- `fit` on a 2-d array with `N ≠ 1` rows: the distance matrix and graph are
computed and stored, and the graph is returned. -/
theorem fit_unfold_ok {s : Store} {TS : NDArr} {d : String} {N L : ℕ}
    (hshape : TS.shape = [N, L]) (hN : N ≠ 1) :
    fit s TS d =
      ⟨(s.set "distance_matrix"
          (RVal.dmat (distMatrix d (corrcoef L TS.entry)))).set "graph"
          (RVal.graph (from_scipy_sparse_matrix N (minimum_spanning_tree N
            (fun i j => denseNull (distMatrix d (corrcoef L TS.entry) i.val j.val))))),
        Except.ok (from_scipy_sparse_matrix N (minimum_spanning_tree N
          (fun i j => denseNull (distMatrix d (corrcoef L TS.entry) i.val j.val))))⟩ := by
  rcases TS with ⟨sh, e⟩
  simp only [NDArr.shape] at hshape
  subst hshape
  simp only [fit, NDArr.entry, if_neg hN]

/-- `fit` on a 2-d array with exactly one row: the distance matrix is stored,
then scipy rejects the 0-d matrix. -/
theorem fit_unfold_one_row {s : Store} {TS : NDArr} {d : String} {L : ℕ}
    (hshape : TS.shape = [1, L]) :
    fit s TS d =
      ⟨s.set "distance_matrix" (RVal.dmat (distMatrix d (corrcoef L TS.entry))),
        Except.error FitErr.mstNotTwoDim⟩ := by
  rcases TS with ⟨sh, e⟩
  simp only [NDArr.shape] at hshape
  subst hshape
  simp [fit, NDArr.entry]

/-- `fit` on a non-2-d array fails at the tuple unpacking, before any
computation and before any store write. -/
theorem fit_unfold_bad_shape {s : Store} {TS : NDArr} {d : String}
    (hshape : TS.shape.length ≠ 2) :
    fit s TS d = ⟨s, Except.error FitErr.shapeUnpack⟩ := by
  rcases TS with ⟨sh, e⟩
  simp only [NDArr.shape] at hshape
  rcases sh with _ | ⟨a, _ | ⟨b, _ | ⟨c, t⟩⟩⟩
  · simp only [fit]
  · simp only [fit]
  · exact absurd rfl hshape
  · simp only [fit]

/-- `fit` only reads the `distance` argument through the distance-matrix
conditional. -/
theorem fit_congr_dist {s : Store} {TS : NDArr} {d1 d2 : String}
    (h : distMatrix d1 = distMatrix d2) : fit s TS d1 = fit s TS d2 := by
  rcases TS with ⟨sh, e⟩
  rcases sh with _ | ⟨a, _ | ⟨b, _ | ⟨c, t⟩⟩⟩ <;> simp only [fit, h]

/-! ## Claims -/

/-- Claim C1: the spec requires the builder to return, for every finite
distance matrix — explicitly including matrices with exact-zero entries — a
spanning tree with exactly N−1 edges connecting all N nodes at minimum total
weight.  The code passes the DENSE distance matrix to scipy's
`minimum_spanning_tree`, whose dense representation cannot express a
zero-weight edge (`null_value=0`), so exact-zero entries are silently treated
as absent edges.  Failing input: the 2×2 all-zero distance matrix produced by
two identical rows.  The builder returns no edges at all, not the one
zero-weight edge connecting the two nodes that every spanning tree of the
complete graph on 2 nodes must contain. -/
theorem claim_C1_zero_weight_edges_dropped :
    minimum_spanning_tree 2 (fun _ _ : Fin 2 => denseNull (RV.val 0)) = [] ∧
    ([] : List (Fin 2 × Fin 2 × ℝ)).length ≠ 2 - 1 := by
  refine ⟨minimum_spanning_tree_no_usable 2 _ (fun u v => denseNull_zero), by decide⟩

/-- Claim C3 counterexample: `fit` called with the unrecognized distance
option `'bogus'` does not fail fast with a configuration error — it completes
and returns a graph. -/
theorem claim_C3_counterexample :
    (fit emptyStore ⟨[2, 1], fun _ _ => 3⟩ "bogus").result =
      Except.ok ⟨2, []⟩ := by
  rw [@fit_unfold_ok emptyStore ⟨[2, 1], fun _ _ => 3⟩ "bogus" 2 1 rfl (by decide)]
  have hmst :
      minimum_spanning_tree 2 (fun i j : Fin 2 =>
        denseNull (distMatrix "bogus" (corrcoef 1 (fun _ _ : ℕ => (3 : ℝ))) i.val j.val)) = [] := by
    refine minimum_spanning_tree_no_usable 2 _ ?_
    intro u v
    rw [distMatrix_nan (corrcoef_short _ _ _ (by decide)), denseNull_nan]
  simp only [hmst, from_scipy_sparse_matrix, natEdges, List.map_nil]

/-- Claim C3, amended: an unrecognized `distance` value is not rejected; any
value other than `'root_inv'` silently selects the inverse-square formula, so
the call behaves exactly like `distance = 'inv_square'`. -/
theorem claim_C3_amended (s : Store) (TS : NDArr) (d : String) (hd : d ≠ "root_inv") :
    fit s TS d = fit s TS "inv_square" :=
  fit_congr_dist (distMatrix_not_root hd)

/-- Claim C3 witness: the amended behavior at the concrete unrecognized
option `'bogus'`. -/
theorem claim_C3_witness :
    fit emptyStore ⟨[3, 4], fun _ _ => 0⟩ "bogus" =
      fit emptyStore ⟨[3, 4], fun _ _ => 0⟩ "inv_square" :=
  claim_C3_amended emptyStore ⟨[3, 4], fun _ _ => 0⟩ "bogus" (by decide)

/-- Claim C8: determinism.  The `result` component of `fit` (the returned
graph, hence its edge set and total weight) depends only on `TS` and the
configuration: two calls with identical `TS` and `distance` give identical
results, whatever the state of the instance's `results` dict at call time. -/
theorem claim_C8_deterministic (s1 s2 : Store) (TS : NDArr) (d : String) :
    (fit s1 TS d).result = (fit s2 TS d).result ∧
    Except.map (fun G => (G.edges, G.totalWeight)) (fit s1 TS d).result =
      Except.map (fun G => (G.edges, G.totalWeight)) (fit s2 TS d).result := by
  have h : (fit s1 TS d).result = (fit s2 TS d).result := by
    rcases TS with ⟨sh, e⟩
    rcases sh with _ | ⟨a, _ | ⟨b, _ | ⟨c, t⟩⟩⟩ <;> simp only [fit]
    by_cases ha : a = 1
    · rw [if_pos ha, if_pos ha]
    · rw [if_neg ha, if_neg ha]
  exact ⟨h, by rw [h]⟩

/-- Claim C10: the branch on the `distance` option is a two-way conditional
with no third outcome: every value other than the exact string `'root_inv'`
selects the inverse-square formula `1 - C²`, and (for a 2-d input with `N ≠ 1`
rows, the shapes on which `fit` completes at all) the call completes normally
and returns a graph. -/
theorem claim_C10_else_branch (s : Store) (TS : NDArr) (d : String) :
    (∀ C : ℕ → ℕ → RV, d ≠ "root_inv" →
      distMatrix d C = fun i j => inv_square (C i j)) ∧
    (∀ N L, d ≠ "root_inv" → TS.shape = [N, L] → N ≠ 1 →
      ∃ G, (fit s TS d).result = Except.ok G) ∧
    (fit s TS d = fit s TS "root_inv" ∨ fit s TS d = fit s TS "inv_square") := by
  refine ⟨?_, ?_, ?_⟩
  · intro C hd
    rw [distMatrix_not_root hd]
    funext i j
    rw [distMatrix, if_neg (by decide)]
  · intro N L hd hshape hN
    rw [fit_unfold_ok hshape hN]
    exact ⟨_, rfl⟩
  · by_cases hd : d = "root_inv"
    · subst hd
      exact Or.inl rfl
    · exact Or.inr (fit_congr_dist (distMatrix_not_root hd))

/-- Claim C10 witness: at the concrete option `'mantegna'` the distance
matrix follows the inverse-square formula and the call completes. -/
theorem claim_C10_witness :
    (distMatrix "mantegna" (fun _ _ : ℕ => RV.val 0) =
      fun _ _ : ℕ => inv_square (RV.val 0)) ∧
    ∃ G, (fit emptyStore ⟨[2, 2], fun _ _ => 0⟩ "mantegna").result = Except.ok G := by
  constructor
  · exact (claim_C10_else_branch emptyStore ⟨[2, 2], fun _ _ => 0⟩ "mantegna").1
      (fun _ _ : ℕ => RV.val 0) (by decide)
  · exact (claim_C10_else_branch emptyStore ⟨[2, 2], fun _ _ => 0⟩ "mantegna").2.1 2 2
      (by decide) rfl (by decide)

/-- Claim C4 counterexample: a 2-d observation matrix with fewer than 2
columns (here 2 rows, 1 column) is NOT rejected: `fit` completes and returns
a graph (every correlation is NaN, so the graph has no edges), contradicting
the claimed fail-fast shape check. -/
theorem claim_C4_counterexample :
    (fit emptyStore ⟨[2, 1], fun _ _ => 0⟩ "root_inv").result =
      Except.ok ⟨2, []⟩ := by
  rw [@fit_unfold_ok emptyStore ⟨[2, 1], fun _ _ => 0⟩ "root_inv" 2 1 rfl (by decide)]
  have hmst :
      minimum_spanning_tree 2 (fun i j : Fin 2 =>
        denseNull (distMatrix "root_inv" (corrcoef 1 (fun _ _ : ℕ => (0 : ℝ))) i.val j.val)) = [] := by
    refine minimum_spanning_tree_no_usable 2 _ ?_
    intro u v
    rw [distMatrix_nan (corrcoef_short _ _ _ (by decide)), denseNull_nan]
  simp only [hmst, from_scipy_sparse_matrix, natEdges, List.map_nil]

/-- Claim C4, amended: only a non-2-d `TS` fails fast (at the tuple
unpacking `N, L = TS.shape`, before any computation or store write).  A 2-d
`TS` is never rejected up front, whatever its number of rows or columns: with
`N ≠ 1` rows the call completes normally (degenerate columns merely produce
NaN correlations), and with exactly one row it fails only later, inside the
tree builder, after the distance matrix has already been computed and
stored. -/
theorem claim_C4_amended (s : Store) (TS : NDArr) (d : String) :
    (TS.shape.length ≠ 2 → fit s TS d = ⟨s, Except.error FitErr.shapeUnpack⟩) ∧
    (∀ N L, TS.shape = [N, L] → N ≠ 1 → ∃ G, (fit s TS d).result = Except.ok G) ∧
    (∀ L, TS.shape = [1, L] →
      (fit s TS d).result = Except.error FitErr.mstNotTwoDim ∧
      (fit s TS d).results "distance_matrix" =
        some (RVal.dmat (distMatrix d (corrcoef L TS.entry)))) := by
  refine ⟨?_, ?_, ?_⟩
  · intro h
    exact fit_unfold_bad_shape h
  · intro N L hshape hN
    rw [fit_unfold_ok hshape hN]
    exact ⟨_, rfl⟩
  · intro L hshape
    rw [fit_unfold_one_row hshape, results_mk, result_mk]
    exact ⟨rfl, Store.set_self _ _ _⟩

/-- Claim C4 witness: a 1-d array is rejected at the shape unpacking, and a
2-d array with 1 column completes. -/
theorem claim_C4_witness :
    (fit emptyStore ⟨[3], fun _ _ => 0⟩ "root_inv" =
      ⟨emptyStore, Except.error FitErr.shapeUnpack⟩) ∧
    ∃ G, (fit emptyStore ⟨[3, 1], fun _ _ => 0⟩ "root_inv").result = Except.ok G := by
  constructor
  · exact (claim_C4_amended emptyStore ⟨[3], fun _ _ => 0⟩ "root_inv").1 (by decide)
  · exact (claim_C4_amended emptyStore ⟨[3, 1], fun _ _ => 0⟩ "root_inv").2.1 3 1 rfl
      (by decide)

/-- Claim C9 counterexample: the `results` store is NOT created fresh on each
call — it is the instance's mutable dict.  Concretely, a key `'extra'`
present in the store before a `fit` call is still present, with its old
value, in the store after the call: state survives between calls. -/
theorem claim_C9_counterexample :
    (fit (Store.set emptyStore "extra" (RVal.graph ⟨7, []⟩))
        ⟨[2, 1], fun _ _ => 1⟩ "root_inv").results "extra" =
      some (RVal.graph ⟨7, []⟩) := by
  rw [@fit_unfold_ok (Store.set emptyStore "extra" (RVal.graph ⟨7, []⟩)) ⟨[2, 1], fun _ _ => 1⟩ "root_inv" 2 1 rfl (by decide), results_mk,
    Store.set_other _ _ _ _ (by decide), Store.set_other _ _ _ _ (by decide),
    Store.set_self]

/-- Claim C9, amended: `fit` writes its two results into the
instance-attached `results` dict, which persists across calls: the two keys
`'distance_matrix'` and `'graph'` are overwritten, and every other entry of
the pre-call store survives the call unchanged. -/
theorem claim_C9_amended (s : Store) (TS : NDArr) (d : String) (N L : ℕ)
    (hshape : TS.shape = [N, L]) (hN : N ≠ 1) :
    ∃ G, (fit s TS d).result = Except.ok G ∧
      (fit s TS d).results "graph" = some (RVal.graph G) ∧
      (fit s TS d).results "distance_matrix" =
        some (RVal.dmat (distMatrix d (corrcoef L TS.entry))) ∧
      ∀ k, k ≠ "graph" → k ≠ "distance_matrix" → (fit s TS d).results k = s k := by
  rw [fit_unfold_ok hshape hN]
  refine ⟨_, rfl, ?_, ?_, ?_⟩
  · rw [results_mk, Store.set_self]
  · rw [results_mk, Store.set_other _ _ _ _ (by decide), Store.set_self]
  · intro k hk1 hk2
    rw [results_mk, Store.set_other _ _ _ _ hk1, Store.set_other _ _ _ _ hk2]

/-- Claim C9 witness: the amended store behavior at a concrete call. -/
theorem claim_C9_witness :
    ∃ G, (fit emptyStore ⟨[2, 3], fun _ _ => 0⟩ "inv_square").result = Except.ok G ∧
      (fit emptyStore ⟨[2, 3], fun _ _ => 0⟩ "inv_square").results "graph" =
        some (RVal.graph G) ∧
      (fit emptyStore ⟨[2, 3], fun _ _ => 0⟩ "inv_square").results "distance_matrix" =
        some (RVal.dmat (distMatrix "inv_square"
          (corrcoef 3 (⟨[2, 3], fun _ _ => 0⟩ : NDArr).entry))) ∧
      ∀ k, k ≠ "graph" → k ≠ "distance_matrix" →
        (fit emptyStore ⟨[2, 3], fun _ _ => 0⟩ "inv_square").results k = emptyStore k :=
  claim_C9_amended emptyStore ⟨[2, 3], fun _ _ => 0⟩ "inv_square" 2 3 rfl (by decide)

/-- Claim C2 counterexample: the claim quantifies over EVERY `TS` with a
zero-variance row, but a single-row constant `TS` (shape 1×2, all entries 5 —
its one row has zero sample variance) makes `fit` raise: numpy squeezes the
1×1 covariance to a 0-d array and scipy rejects the resulting 0-d distance
matrix, so `fit` does not return a forest at all. -/
theorem claim_C2_counterexample :
    cov 2 (fun _ _ : ℕ => (5 : ℝ)) 0 0 = 0 ∧
    (fit emptyStore ⟨[1, 2], fun _ _ => 5⟩ "root_inv").result =
      Except.error FitErr.mstNotTwoDim := by
  constructor
  · norm_num [cov, rowMean, Finset.sum_range_succ, Finset.sum_range_zero]
  · rw [@fit_unfold_one_row emptyStore ⟨[1, 2], fun _ _ => 5⟩ "root_inv" 2 rfl, result_mk]

/-- Claim C2, amended: for every 2-d `TS` with `N ≠ 1` rows in which row `i`
has zero sample variance, `fit` does not raise; every correlation and
distance entry involving row `i` is NaN; those NaN entries are treated as
absent edges by the tree builder, so no edge of the returned graph touches
node `i` — it sits in its own component while still being one of the `N`
nodes — and the returned edge set is a forest (acyclic).  (A single-row `TS`
instead makes `fit` raise inside the tree builder, for any values.) -/
theorem claim_C2_amended (s : Store) (TS : NDArr) (d : String) (N L i : ℕ)
    (hshape : TS.shape = [N, L]) (hN : N ≠ 1) (hvar : cov L TS.entry i i = 0) :
    ∃ G, (fit s TS d).result = Except.ok G ∧
      G.n = N ∧
      (∀ j, corrcoef L TS.entry i j = RV.nan ∧ corrcoef L TS.entry j i = RV.nan ∧
        distMatrix d (corrcoef L TS.entry) i j = RV.nan ∧
        distMatrix d (corrcoef L TS.entry) j i = RV.nan) ∧
      (∀ e ∈ G.edges, e.1 ≠ i ∧ e.2.1 ≠ i) ∧
      (graphOfEdges G.edges).IsAcyclic := by
  rw [fit_unfold_ok hshape hN, result_mk]
  refine ⟨_, rfl, rfl, ?_, ?_, ?_⟩
  · intro j
    exact ⟨corrcoef_nan_left _ _ _ hvar, corrcoef_nan_right _ _ _ hvar,
      distMatrix_nan (corrcoef_nan_left _ _ _ hvar),
      distMatrix_nan (corrcoef_nan_right _ _ _ hvar)⟩
  · intro e he
    simp only [from_scipy_sparse_matrix, natEdges] at he
    rcases List.mem_map.mp he with ⟨q, hq, rfl⟩
    have husable : denseNull
        (distMatrix d (corrcoef L TS.entry) q.1.val q.2.1.val) = some q.2.2 :=
      minimum_spanning_tree_usable N _ q hq
    constructor
    · intro h
      have hqi : (q.1 : ℕ) = i := h
      rw [hqi, distMatrix_nan (corrcoef_nan_left _ _ _ hvar), denseNull_nan] at husable
      exact Option.noConfusion husable
    · intro h
      have hqi : (q.2.1 : ℕ) = i := h
      rw [hqi, distMatrix_nan (corrcoef_nan_right _ _ _ hvar), denseNull_nan] at husable
      exact Option.noConfusion husable
  · exact minimum_spanning_tree_acyclic N _

/-- Claim C2 witness: a concrete 2×2 `TS` whose first row is constant: `fit`
completes, row 0 is NaN-correlated and isolated in an acyclic graph. -/
theorem claim_C2_witness :
    ∃ G, (fit emptyStore
        ⟨[2, 2], fun i k => if i = 0 then 5 else if k = 0 then 0 else 1⟩
        "root_inv").result = Except.ok G ∧
      G.n = 2 ∧
      (∀ j, corrcoef 2 (fun i k => if i = 0 then (5 : ℝ) else if k = 0 then 0 else 1) 0 j
          = RV.nan ∧
        corrcoef 2 (fun i k => if i = 0 then (5 : ℝ) else if k = 0 then 0 else 1) j 0
          = RV.nan ∧
        distMatrix "root_inv" (corrcoef 2
          (fun i k => if i = 0 then (5 : ℝ) else if k = 0 then 0 else 1)) 0 j = RV.nan ∧
        distMatrix "root_inv" (corrcoef 2
          (fun i k => if i = 0 then (5 : ℝ) else if k = 0 then 0 else 1)) j 0 = RV.nan) ∧
      (∀ e ∈ G.edges, e.1 ≠ 0 ∧ e.2.1 ≠ 0) ∧
      (graphOfEdges G.edges).IsAcyclic :=
  claim_C2_amended emptyStore
    ⟨[2, 2], fun i k => if i = 0 then 5 else if k = 0 then 0 else 1⟩ "root_inv" 2 2 0
    rfl (by decide)
    (by norm_num [cov, rowMean, Finset.sum_range_succ, Finset.sum_range_zero])

/-- Claim C6 counterexample: the distance transform itself does NOT clamp:
applied to a correlation entry marginally above 1 (here 101/100), the
quantity under the square root is negative and `np.sqrt` yields NaN, not 0. -/
theorem claim_C6_counterexample :
    root_inv (RV.val (101 / 100)) = RV.nan ∧
    root_inv (RV.val (101 / 100)) ≠ RV.val 0 := by
  have h : root_inv (RV.val (101 / 100)) = RV.nan := by
    simp only [root_inv, RV.sub, RV.mul, rvSqrt]
    rw [if_neg (by norm_num)]
  exact ⟨h, by rw [h]; exact fun hc => RV.noConfusion hc⟩

/-- Claim C6, amended: the clamping lives in the correlation estimator, not
in the distance transform: `np.corrcoef` clips every finite entry to
`[-1, 1]`, so the quantity `2 * (1 - C)` under the square root is never
negative inside `fit`; on any entry `c ≤ 1` the transform returns the plain
square root (never NaN), and at `c = 1` the distance is exactly 0.  The raw
transform applied to a value above 1 would yield NaN (see the
counterexample). -/
theorem claim_C6_amended (L : ℕ) (x : ℕ → ℕ → ℝ) (i j : ℕ) :
    (corrcoef L x i j = RV.nan ∨
      ∃ c, corrcoef L x i j = RV.val c ∧ -1 ≤ c ∧ c ≤ 1) ∧
    (∀ c : ℝ, c ≤ 1 → root_inv (RV.val c) = RV.val (Real.sqrt (2 * (1 - c)))) ∧
    root_inv (RV.val 1) = RV.val 0 := by
  refine ⟨corrcoef_cases L x i j, fun c hc => root_inv_val_le_one hc, ?_⟩
  rw [root_inv_val_le_one le_rfl]
  norm_num

/-- Claim C6 witness: the amended transform behavior at the concrete clipped
value 1/2. -/
theorem claim_C6_witness :
    root_inv (RV.val (1 / 2)) = RV.val (Real.sqrt (2 * (1 - 1 / 2))) :=
  (claim_C6_amended 2 (fun _ _ => 0) 0 0).2.1 (1 / 2) (by norm_num)

/-- Claim C7: for a valid `TS` (2-d, at least 2 columns, no zero-variance
rows) the distance matrix stored by `fit` is symmetric, has diagonal exactly
0, and every entry within the selected formula's bound: `[0, 2]` for
`'root_inv'` and `[0, 1]` for every other option (the inverse-square
branch). -/
theorem claim_C7_invariants (s : Store) (TS : NDArr) (d : String) (N L : ℕ)
    (hshape : TS.shape = [N, L]) (hL : 2 ≤ L)
    (hvar : ∀ i, i < N → cov L TS.entry i i ≠ 0) :
    (fit s TS d).results "distance_matrix" =
      some (RVal.dmat (distMatrix d (corrcoef L TS.entry))) ∧
    (∀ i j, distMatrix d (corrcoef L TS.entry) i j =
      distMatrix d (corrcoef L TS.entry) j i) ∧
    (∀ i, i < N → distMatrix d (corrcoef L TS.entry) i i = RV.val 0) ∧
    (∀ i j, i < N → j < N →
      ∃ x, distMatrix d (corrcoef L TS.entry) i j = RV.val x ∧
        0 ≤ x ∧ x ≤ (if d = "root_inv" then 2 else 1)) := by
  refine ⟨?_, ?_, ?_, ?_⟩
  · by_cases hN : N = 1
    · subst hN
      rw [fit_unfold_one_row hshape, results_mk, Store.set_self]
    · rw [fit_unfold_ok hshape hN, results_mk,
        Store.set_other _ _ _ _ (by decide), Store.set_self]
  · intro i j
    rw [distMatrix, distMatrix, corrcoef_symm L TS.entry i j]
  · intro i hi
    rw [distMatrix, corrcoef_self L TS.entry i hL (hvar i hi)]
    by_cases hd : d = "root_inv"
    · rw [if_pos hd, root_inv_val_le_one le_rfl]
      norm_num
    · rw [if_neg hd, inv_square_val]
      norm_num
  · intro i j hi hj
    obtain ⟨c, hc, hc1, hc2⟩ := corrcoef_val L TS.entry i j hL (hvar i hi) (hvar j hj)
    rw [distMatrix, hc]
    by_cases hd : d = "root_inv"
    · rw [if_pos hd, if_pos hd, root_inv_val_le_one hc2]
      refine ⟨_, rfl, Real.sqrt_nonneg _, ?_⟩
      have hb : Real.sqrt (2 * (1 - c)) ≤ Real.sqrt 4 := Real.sqrt_le_sqrt (by nlinarith)
      rwa [sqrt_four] at hb
    · rw [if_neg hd, if_neg hd, inv_square_val]
      exact ⟨_, rfl, by nlinarith, by nlinarith⟩

/-- Claim C7 witness: the invariants at a concrete valid 2×2 `TS`. -/
theorem claim_C7_witness :
    (fit emptyStore ⟨[2, 2], fun i k => if i = k then 0 else 1⟩ "root_inv").results
        "distance_matrix" =
      some (RVal.dmat (distMatrix "root_inv"
        (corrcoef 2 (⟨[2, 2], fun i k => if i = k then 0 else 1⟩ : NDArr).entry))) ∧
    (∀ i j, distMatrix "root_inv"
        (corrcoef 2 (fun i k : ℕ => if i = k then (0 : ℝ) else 1)) i j =
      distMatrix "root_inv"
        (corrcoef 2 (fun i k : ℕ => if i = k then (0 : ℝ) else 1)) j i) ∧
    (∀ i, i < 2 → distMatrix "root_inv"
        (corrcoef 2 (fun i k : ℕ => if i = k then (0 : ℝ) else 1)) i i = RV.val 0) ∧
    (∀ i j, i < 2 → j < 2 →
      ∃ x, distMatrix "root_inv"
          (corrcoef 2 (fun i k : ℕ => if i = k then (0 : ℝ) else 1)) i j = RV.val x ∧
        0 ≤ x ∧ x ≤ (if "root_inv" = "root_inv" then (2 : ℝ) else 1)) :=
  claim_C7_invariants emptyStore ⟨[2, 2], fun i k => if i = k then 0 else 1⟩
    "root_inv" 2 2 rfl (by norm_num)
    (by
      intro i hi
      interval_cases i <;>
        norm_num [cov, rowMean, Finset.sum_range_succ, Finset.sum_range_zero])

/-- Claim C5: for the scenario `TS = [[1,2],[1,2],[2,1]]` (rows 0 and 1
identical), the correlation `C[0][1]` is indeed exactly 1 and the distance
`D[0][1]` is exactly 0 — but the returned graph does NOT contain the
zero-weight edge `(0,1)`, even though that edge belongs to the optimal
spanning tree: scipy's dense representation treats the 0 entry as "no edge",
so `fit` returns the tree `0-2, 2-1` of total weight 4, while the spanning
tree `{(0,1), (0,2)}` using the zero-weight edge has total weight 2. -/
theorem claim_C5_zero_distance_edge_dropped :
    corrcoef 2 ts5 0 1 = RV.val 1 ∧
    distMatrix "root_inv" (corrcoef 2 ts5) 0 1 = RV.val 0 ∧
    (fit emptyStore ⟨[3, 2], ts5⟩ "root_inv").result =
      Except.ok ⟨3, [(0, 2, 2), (2, 1, 2)]⟩ ∧
    (¬RGraph.hasEdge ⟨3, [(0, 2, 2), (2, 1, 2)]⟩ 0 1) ∧
    RGraph.totalWeight ⟨3, [(0, 2, 2), (2, 1, 2)]⟩ = 4 ∧
    RGraph.totalWeight ⟨3, [(0, 1, 0), (0, 2, 2)]⟩ = 2 := by
  have hc00 : cov 2 ts5 0 0 = 1 / 2 := by
    norm_num [cov, rowMean, ts5, Finset.sum_range_succ, Finset.sum_range_zero]
  have hc11 : cov 2 ts5 1 1 = 1 / 2 := by
    norm_num [cov, rowMean, ts5, Finset.sum_range_succ, Finset.sum_range_zero]
  have hc22 : cov 2 ts5 2 2 = 1 / 2 := by
    norm_num [cov, rowMean, ts5, Finset.sum_range_succ, Finset.sum_range_zero]
  have hc01 : cov 2 ts5 0 1 = 1 / 2 := by
    norm_num [cov, rowMean, ts5, Finset.sum_range_succ, Finset.sum_range_zero]
  have hc02 : cov 2 ts5 0 2 = -(1 / 2) := by
    norm_num [cov, rowMean, ts5, Finset.sum_range_succ, Finset.sum_range_zero]
  have hc12 : cov 2 ts5 1 2 = -(1 / 2) := by
    norm_num [cov, rowMean, ts5, Finset.sum_range_succ, Finset.sum_range_zero]
  have hc10 : cov 2 ts5 1 0 = 1 / 2 := by rw [cov_symm]; exact hc01
  have hc20 : cov 2 ts5 2 0 = -(1 / 2) := by rw [cov_symm]; exact hc02
  have hc21 : cov 2 ts5 2 1 = -(1 / 2) := by rw [cov_symm]; exact hc12
  have key : ∀ i j : ℕ, cov 2 ts5 i i = 1 / 2 → cov 2 ts5 j j = 1 / 2 →
      ∀ c : ℝ, cov 2 ts5 i j = c →
      corrcoef 2 ts5 i j = RV.val (clip (c / (1 / 2))) := by
    intro i j hii hjj c hij
    rw [corrcoef, if_neg (by norm_num), if_neg (by rw [hii, hjj]; norm_num),
      hii, hjj, hij, Real.mul_self_sqrt (by norm_num : (0 : ℝ) ≤ 1 / 2)]
  have hr00 : corrcoef 2 ts5 0 0 = RV.val 1 :=
    corrcoef_self 2 ts5 0 le_rfl (by rw [hc00]; norm_num)
  have hr11 : corrcoef 2 ts5 1 1 = RV.val 1 :=
    corrcoef_self 2 ts5 1 le_rfl (by rw [hc11]; norm_num)
  have hr22 : corrcoef 2 ts5 2 2 = RV.val 1 :=
    corrcoef_self 2 ts5 2 le_rfl (by rw [hc22]; norm_num)
  have hr01 : corrcoef 2 ts5 0 1 = RV.val 1 := by
    rw [key 0 1 hc00 hc11 (1 / 2) hc01]
    norm_num [clip, max_def, min_def]
  have hr10 : corrcoef 2 ts5 1 0 = RV.val 1 := by
    rw [key 1 0 hc11 hc00 (1 / 2) hc10]
    norm_num [clip, max_def, min_def]
  have hr02 : corrcoef 2 ts5 0 2 = RV.val (-1) := by
    rw [key 0 2 hc00 hc22 (-(1 / 2)) hc02]
    norm_num [clip, max_def, min_def]
  have hr20 : corrcoef 2 ts5 2 0 = RV.val (-1) := by
    rw [key 2 0 hc22 hc00 (-(1 / 2)) hc20]
    norm_num [clip, max_def, min_def]
  have hr12 : corrcoef 2 ts5 1 2 = RV.val (-1) := by
    rw [key 1 2 hc11 hc22 (-(1 / 2)) hc12]
    norm_num [clip, max_def, min_def]
  have hr21 : corrcoef 2 ts5 2 1 = RV.val (-1) := by
    rw [key 2 1 hc22 hc11 (-(1 / 2)) hc21]
    norm_num [clip, max_def, min_def]
  have hD1 : root_inv (RV.val 1) = RV.val 0 := by
    rw [root_inv_val_le_one le_rfl, show (2 : ℝ) * (1 - 1) = 0 by norm_num,
      Real.sqrt_zero]
  have hDm1 : root_inv (RV.val (-1)) = RV.val 2 := by
    rw [root_inv_val_le_one (by norm_num : (-1 : ℝ) ≤ 1),
      show (2 : ℝ) * (1 - -1) = 4 by norm_num, sqrt_four]
  have hW : (fun i j : Fin 3 =>
      denseNull (distMatrix "root_inv" (corrcoef 2 ts5) i.val j.val)) = Wexp5 := by
    funext u v
    fin_cases u <;> fin_cases v <;>
      norm_num [Wexp5, distMatrix, hr00, hr01, hr02, hr10, hr11, hr12, hr20, hr21,
        hr22, hD1, hDm1, denseNull]
  have hmst : minimum_spanning_tree 3 Wexp5 = [(0, 2, 2), (2, 1, 2)] := rfl
  have hD01 : distMatrix "root_inv" (corrcoef 2 ts5) 0 1 = RV.val 0 := by
    rw [distMatrix, if_pos rfl, hr01, hD1]
  refine ⟨hr01, hD01, ?_, ?_, ?_, ?_⟩
  · rw [@fit_unfold_ok emptyStore ⟨[3, 2], ts5⟩ "root_inv" 3 2 rfl (by decide), result_mk]
    show Except.ok (from_scipy_sparse_matrix 3 (minimum_spanning_tree 3
      (fun i j : Fin 3 =>
        denseNull (distMatrix "root_inv" (corrcoef 2 ts5) i.val j.val)))) = _
    rw [hW, hmst]
    rfl
  · rintro ⟨w, h | h⟩ <;> simp at h
  · norm_num [RGraph.totalWeight]
  · norm_num [RGraph.totalWeight]

end CST
